import Mathlib

/-!
Shallow embedding of `infseq.py`, a library of lazy, cached, infinite
sequences.  Python integers are modelled by `Int` (generators can be called
with negative arguments through slicing, so their domain is all of `Int`);
the memoization cache of `functools.lru_cache` is modelled as explicit state
threaded through `getValue`.  Leading underscores of the Python names are
dropped (`_get_value` becomes `getValue`, `_slice` becomes `slice`, and so
on); otherwise each definition follows its source line by line.
-/

namespace Infseq

variable {V : Type}

/-- A lazy infinite sequence is backed by a generator function from integer
indices to values (`_InfSequenceBase._generator`). -/
structure InfSequence (V : Type) where
  generator : Int → V

/-- Index keys accepted by `__getitem__` other than slices: an integer key,
or a key of some non-integer, non-slice type.  Slice keys are dispatched to
`slice` and are modelled separately. -/
inductive Key where
  | int (i : Int)
  | nonIntKey

/-- Errors raised by `__getitem__`: a `TypeError` for a non-integer key, a
`ValueError` for a negative integer key. -/
inductive IndexError where
  | typeError
  | valueError

/-- Value-level model of `__getitem__` for non-slice keys: a non-integer key
raises `TypeError`, a negative integer raises `ValueError`, otherwise the
value is `_get_value index`, observably `generator index`. -/
def get (g : Int → V) : Key → Except IndexError V
  | .nonIntKey => .error .typeError
  | .int i => if i < 0 then .error .valueError else .ok (g i)

/-- The memoization cache of `lru_cache`: an association list of
(index, value) pairs kept most-recently-used first. -/
abbrev Cache (V : Type) := List (Int × V)

/-- The cache capacity of `lru_cache(maxsize=1024)`. -/
def cacheMaxsize : Nat := 1024

/-- `_get_value`: look the index up in the cache, moving a hit to the
most-recently-used position; on a miss evaluate the generator, insert the
result at the front and drop entries beyond capacity (evicting the least
recently used one). -/
def getValue (g : Int → V) (c : Cache V) (i : Int) : V × Cache V :=
  match c.find? (fun p => p.1 == i) with
  | some p => (p.2, (i, p.2) :: c.filter (fun q => q.1 != i))
  | none => (g i, ((i, g i) :: c).take cacheMaxsize)

/-- Cache consistency: every cached pair holds the generator's value at its
index.  It is maintained because the generator is treated as pure, which is
why eviction and recomputation never change observable values. -/
def CacheOK (g : Int → V) (c : Cache V) : Prop := ∀ p ∈ c, p.2 = g p.1

/-- Python `start or 0` on the slice start: `None` (and `0` itself) become
`0`. -/
def effStart : Option Int → Int
  | none => 0
  | some s => s

/-- Python `step or 1` on the slice step: `None` and `0` (falsy) both become
`1`. -/
def effStep : Option Int → Int
  | none => 1
  | some s => if s = 0 then 1 else s

/-- Python `stop = -1 if stop is None else stop` in the bounded branch of
`_slice`. -/
def stopOrNeg1 : Option Int → Int
  | none => -1
  | some x => x

/-- The number of elements of Python `range(start, stop, step)` for a
non-zero step (`0` for a zero step; `_slice` never builds such a range). -/
def rangeLen (start stop step : Int) : Nat :=
  if 0 < step then (stop - start + step - 1).toNat / step.toNat
  else if step < 0 then (start - stop - step - 1).toNat / (-step).toNat
  else 0

/-- Python `range(start, stop, step)` as the list of produced integers. -/
def pyRange (start stop step : Int) : List Int :=
  (List.range (rangeLen start stop step)).map (fun k => start + step * k)

/-- A Python `map` object: a one-shot iterator holding the mapped function
and the list of arguments not yet consumed.  `map(self._get_value,
range(start, stop, step))` is the bounded-slice result. -/
structure MapIter (V : Type) where
  f : Int → V
  remaining : List Int

/-- Model of `__iter__` on a map object: it returns the object itself rather
than a fresh iterator, so an exhausted map object stays exhausted. -/
def MapIter.iter (it : MapIter V) : MapIter V := it

/-- Fully consuming a map iterator (as `list(...)` would): the produced
values, together with the exhausted iterator state left behind. -/
def MapIter.consume (it : MapIter V) : List V × MapIter V :=
  (it.remaining.map it.f, ⟨it.f, []⟩)

/-- The result of `_slice`: either a fresh `InfSequence` (open-ended slice)
or a map iterator over a finite range (bounded slice). -/
inductive SliceResult (V : Type) where
  | seq (s : InfSequence V)
  | iter (it : MapIter V)

/-- Model of `_slice`: after the `or`-defaulting of start and step, an unset
stop with a non-negative step yields a fresh sequence over the parent's raw
generator; otherwise an unset stop becomes `-1` and the result is
`map(self._get_value, range(start, stop, step))`. -/
def slice (g : Int → V) (start step stop : Option Int) : SliceResult V :=
  if stop = none ∧ 0 ≤ effStep step then
    .seq ⟨fun index => g (effStart start + effStep step * index)⟩
  else
    .iter ⟨g, pyRange (effStart start) (stopOrNeg1 stop) (effStep step)⟩

/-- The value of an open-ended slice result at an index (with default `d`
when the slice was bounded and produced an iterator instead). -/
def sliceValueAt (r : SliceResult V) (d : V) (i : Int) : V :=
  match r with
  | .seq s => s.generator i
  | .iter _ => d

/-- The right operand of an arithmetic operator method: another sequence, or
a scalar. -/
inductive Operand (V : Type) where
  | seq (t : InfSequence V)
  | scalar (k : V)

/-- `_get_generator`: combine with the other sequence's raw generator (not
its cached access path), or with the scalar, pointwise. -/
def getGenerator (g : Int → V) (op : V → V → V) : Operand V → (Int → V)
  | .seq t => fun index => op (g index) (t.generator index)
  | .scalar k => fun index => op (g index) k

/-- The six operator names of `_supported_operators`, installed on
`InfSequence` by `_get_method_for_operation`. -/
inductive OpName where
  | add
  | sub
  | mul
  | truediv
  | floordiv
  | pow

/-- `_get_method_for_operation`: given the host language's interpretation of
the operator names, each generated method wraps the generator built by
`_get_generator` in a new sequence. -/
def methodFor (hostOp : OpName → V → V → V) (name : OpName)
    (self : InfSequence V) (k : Operand V) : InfSequence V :=
  ⟨getGenerator self.generator (hostOp name) k⟩

/-- Convolution `__matmul__`: although the docstring describes products
`a[i] * b[n-i]`, the implementation sums `self[i] + other_seq[index - i]`
for `i` in `range(index + 1)`; a negative index yields the empty sum 0. -/
def matmul (a b : InfSequence Int) : InfSequence Int :=
  ⟨fun index =>
    ((List.range (index + 1).toNat).map
      (fun i : Nat => a.generator i + b.generator (index - (i : Int)))).sum⟩

/-- Python list indexing as used by `__radd__`: a negative index wraps from
the end.  (Out-of-range access raises in Python; it is unreachable from
`__radd__` for the non-negative indices the claims quantify over, and is
given the value 0 here.) -/
def pyListGet (xs : List Int) (i : Int) : Int :=
  if 0 ≤ i then xs.getD i.toNat 0 else xs.getD (xs.length + i).toNat 0

/-- `__radd__`: prepend a finite sequence of length `L`; indices below `L`
read the finite sequence, larger indices read `self[index - L]`. -/
def radd (iterable : List Int) (self : InfSequence Int) : InfSequence Int :=
  ⟨fun index =>
    if index < (iterable.length : Int) then pyListGet iterable index
    else self.generator (index - iterable.length)⟩

/-- Static factory `arithmetic_progression(step, start_value)`. -/
def arithmetic_progression (step startValue : Int) : InfSequence Int :=
  ⟨fun index => startValue + step * index⟩

/-- The values produced by the self-referential Fibonacci generator.  The
generator's forcing loop materializes all indices below `index` in
increasing order through the cache before summing the two previous entries,
which realizes exactly this structural primitive recursion (and is what
makes evaluation terminate without deep recursion). -/
def fibNat : Nat → Int
  | 0 => 0
  | 1 => 1
  | n + 2 => fibNat (n + 1) + fibNat n

/-- Static factory `fibonacci()`: the generator returns the index itself
when `index <= 1` (including negative indices) and otherwise the sum of the
two previous values of the sequence. -/
def fibonacci : InfSequence Int :=
  ⟨fun index => if index ≤ 1 then index else fibNat index.toNat⟩

/-- The first constructor argument `k` of `__init__`: a callable, or a plain
value, where `Option.none` stands for Python `None` (the default). -/
inductive InitK where
  | fn (g : Int → Option Int)
  | val (v : Option Int)

/-- Errors raised by `__init__`: the `ValueError` for a supplied third
argument, and the `TypeError` raised by evaluating `l - k` when `k` is not a
number (a callable or `None`). -/
inductive InitError where
  | invalidArgument
  | typeError

/-- `__init__`: `mSupplied` is true when a third argument (anything other
than the `Ellipsis` sentinel) was passed.  When `l` is supplied, the
arithmetic-progression generator `k + (l - k) * index` is built eagerly, so
a non-numeric `k` fails right here at construction time. -/
def init (k : InitK) (l : Option Int) (mSupplied : Bool) :
    Except InitError (Int → Option Int) :=
  if mSupplied then .error .invalidArgument
  else
    match l with
    | some lv =>
      match k with
      | .val (some kv) => .ok fun index => some (kv + (lv - kv) * index)
      | .val none => .error .typeError
      | .fn _ => .error .typeError
    | none =>
      match k with
      | .fn g => .ok g
      | .val v => .ok fun _ => v

/-! Helper lemmas shared by the claim theorems. -/

/-- Summing a function mapped over `List.range` agrees with the
`Finset.range` sum. -/
theorem sum_map_range (f : Nat → Int) (n : Nat) :
    ((List.range n).map f).sum = ∑ i ∈ Finset.range n, f i := by
  induction n with
  | zero => simp
  | succ k ih =>
    rw [List.range_succ, List.map_append, List.sum_append,
      Finset.sum_range_succ, ih]
    simp

/-- A consistent cache makes `_get_value` return the generator's value and
leave the cache consistent, whatever was cached or evicted before. -/
theorem getValue_ok (g : Int → V) (c : Cache V) (i : Int)
    (hc : CacheOK g c) :
    (getValue g c i).1 = g i ∧ CacheOK g (getValue g c i).2 := by
  unfold getValue
  cases hfind : c.find? (fun p => p.1 == i) with
  | none =>
    refine ⟨rfl, fun p hp => ?_⟩
    have hp' : p ∈ (i, g i) :: c := List.take_subset _ _ hp
    rcases List.mem_cons.mp hp' with h | h
    · rw [h]
    · exact hc p h
  | some p =>
    have hpred := List.find?_some hfind
    have hmem : p ∈ c := List.mem_of_find?_eq_some hfind
    have hkey : p.1 = i := by simpa using hpred
    have hval : p.2 = g i := by rw [hc p hmem, hkey]
    refine ⟨hval, fun q hq => ?_⟩
    rcases List.mem_cons.mp hq with h | h
    · rw [h]; exact hval
    · exact hc q (List.mem_of_mem_filter h)

/-- The Fibonacci sequence's generator agrees with `fibNat` on every
natural index. -/
theorem fib_gen_nat (n : Nat) : fibonacci.generator (n : Int) = fibNat n := by
  match n with
  | 0 => rfl
  | 1 => rfl
  | n + 2 =>
    have h1 : ¬ (((n + 2 : Nat) : Int) ≤ 1) := by push_cast; omega
    have h2 : ((n + 2 : Nat) : Int).toNat = n + 2 := by omega
    simp only [fibonacci]
    rw [if_neg h1, h2]

/-! Claim theorems. -/

/-- C1: for all sequences `a`, `b` and every natural index `n`, the
convolution `a @ b` is a sequence whose value at `n` is the sum over `i`
from 0 to `n` of `a[i] + b[n-i]`: the combining operation applied to the
paired elements whose indices sum to `n` is addition. -/
theorem matmul_spec (a b : InfSequence Int) (n : Nat) :
    (matmul a b).generator n =
      ∑ i ∈ Finset.range (n + 1),
        (a.generator i + b.generator ((n : Int) - i)) := by
  have hlen : ((n : Int) + 1).toNat = n + 1 := by omega
  simp only [matmul, hlen]
  exact sum_map_range _ _

/-- C2: for each of the six operator names, the generated method produces a
new sequence combining pointwise: when the right operand is a sequence, the
value at every index `i` is `OP(self[i], other[i])`; when it is a scalar
`k`, the value is `OP(self[i], k)`. -/
theorem operator_methods_spec (hostOp : OpName → V → V → V)
    (name : OpName) (self other : InfSequence V) (k : V) (i : Int) :
    (methodFor hostOp name self (.seq other)).generator i
        = hostOp name (self.generator i) (other.generator i) ∧
    (methodFor hostOp name self (.scalar k)).generator i
        = hostOp name (self.generator i) k :=
  ⟨rfl, rfl⟩

/-- C8: supplying a third constructor argument fails immediately with the
`ValueError`-equivalent, and supplying both a callable and an endpoint value
fails immediately with the `TypeError`-equivalent raised while evaluating
`l - k`; both are construction-time failures — `init` returns an error and
no generator is ever produced, so nothing is deferred to evaluation time. -/
theorem init_errors_spec (k : InitK) (l : Option Int)
    (g : Int → Option Int) (lv : Int) :
    init k l true = .error .invalidArgument ∧
    init (.fn g) (some lv) false = .error .typeError :=
  ⟨rfl, rfl⟩

/-- C10: a slice step of 0 never raises at this interface: `step or 1`
replaces both an unset and a zero step by 1, so slicing with step 0 gives
exactly the result of slicing with step 1 for any start and stop, and an
unset or zero start is likewise treated as 0. -/
theorem slice_step_zero_spec (g : Int → V) (start stop : Option Int) :
    slice g start (some 0) stop = slice g start (some 1) stop ∧
    effStep (some 0) = 1 ∧ effStart none = 0 ∧ effStart (some 0) = 0 :=
  ⟨rfl, rfl, rfl, rfl⟩

/-- C3: indexing with a non-integer (non-slice) key raises the
`TypeError`-equivalent, indexing with a negative integer raises the
`ValueError`-equivalent, and indexing with any non-negative integer
succeeds with exactly `generator i`; a consistent cache returns the
generator's value, stays consistent through hits, insertions and LRU
eviction, and a repeated call returns the same value. -/
theorem getitem_spec (g : Int → V) (c : Cache V) (i : Int)
    (hc : CacheOK g c) :
    get g .nonIntKey = (.error .typeError : Except IndexError V) ∧
    (i < 0 → get g (.int i) = .error .valueError) ∧
    (0 ≤ i → get g (.int i) = .ok (g i)) ∧
    (getValue g c i).1 = g i ∧
    CacheOK g (getValue g c i).2 ∧
    (getValue g (getValue g c i).2 i).1 = (getValue g c i).1 := by
  obtain ⟨h1, h2⟩ := getValue_ok g c i hc
  obtain ⟨h3, -⟩ := getValue_ok g (getValue g c i).2 i h2
  refine ⟨rfl, ?_, ?_, h1, h2, ?_⟩
  · intro hi
    simp [get, hi]
  · intro hi
    simp [get, not_lt.mpr hi]
  · rw [h3, h1]

/-- Witness for C3 at the identity generator, the empty cache and
index 3. -/
theorem getitem_spec_witness :
    CacheOK (fun i : Int => i) ([] : Cache Int) ∧
    (getValue (fun i : Int => i) ([] : Cache Int) 3).1 = 3 :=
  ⟨fun p hp => absurd hp (List.not_mem_nil p),
   ((getitem_spec (fun i : Int => i) ([] : Cache Int) 3
      (fun p hp => absurd hp (List.not_mem_nil p))).2.2.2).1⟩

/-- C4 is false as stated: with `stop` unset and an explicit `step = 0`
(which satisfies `step ≥ 0`), the open slice of the identity sequence has
value 1 at index 1, while the claimed formula `generator (start + step * i)`
predicts `generator (0 + 0 * 1) = 0`; Python's `step or 1` silently replaces
the zero step by 1. -/
theorem slice_open_step_zero_cex :
    sliceValueAt (slice (fun i : Int => i) none (some 0) none) 0 1 = 1 ∧
    (fun i : Int => i) (0 + 0 * 1) = 0 :=
  ⟨rfl, rfl⟩

/-- C4 (amended): slicing with `stop` unset and a non-negative effective
step — an unset step defaults to 1 and an explicit 0 is likewise replaced by
1 — returns a fresh derived sequence (with its own cache, sharing none with
the parent) whose value at every index `i` is the parent's raw generator at
`start + step * i`, an unset start defaulting to 0. -/
theorem slice_open_spec (g : Int → V) (start step : Option Int)
    (h : 0 ≤ effStep step) :
    slice g start step none =
      .seq ⟨fun i => g (effStart start + effStep step * i)⟩ := by
  unfold slice
  rw [if_pos ⟨rfl, h⟩]

/-- Witness for C4's amended theorem at the identity sequence with `start`
unset and `step = 2`. -/
theorem slice_open_spec_witness :
    0 ≤ effStep (some 2) ∧
    slice (fun i : Int => i) none (some 2) none =
      .seq ⟨fun i => (fun i : Int => i) (effStart none + effStep (some 2) * i)⟩ :=
  ⟨by decide, slice_open_spec (fun i : Int => i) none (some 2) (by decide)⟩

/-- C5 is false as stated on the "restartable" point: `s[0:5]` on the
identity sequence produces the map iterator over `range(0, 5, 1)`; its one
consumption yields the five values 0..4, but consuming the iterator that
`__iter__` returns afterwards yields `[]` rather than those five values
again — a map object is a one-shot iterator, not restartable. -/
theorem slice_bounded_not_restartable :
    slice (fun i : Int => i) (some 0) (some 1) (some 5) =
      .iter ⟨fun i : Int => i, pyRange 0 5 1⟩ ∧
    (MapIter.consume ⟨fun i : Int => i, pyRange 0 5 1⟩).1 = [0, 1, 2, 3, 4] ∧
    ((MapIter.consume ⟨fun i : Int => i, pyRange 0 5 1⟩).2.iter.consume).1 = [] :=
  ⟨rfl, by decide, rfl⟩

/-- C5 (amended): slicing with `stop` set produces a finite one-shot lazy
map iterator — not restartable — over exactly the indices
`range(start, stop, step)` in order; consuming it yields the sequence's
cached value at each of those indices (the value `get` returns on the
non-negative ones), and `s[0:5]` yields exactly the five values at indices
0 through 4. -/
theorem slice_bounded_spec (g : Int → V) (start step : Option Int)
    (v : Int) :
    slice g start step (some v) =
      .iter ⟨g, pyRange (effStart start) v (effStep step)⟩ ∧
    (MapIter.consume ⟨g, pyRange (effStart start) v (effStep step)⟩).1 =
      (pyRange (effStart start) v (effStep step)).map g ∧
    ((MapIter.consume ⟨g, pyRange (effStart start) v (effStep step)⟩).2.iter.consume).1 = [] ∧
    (MapIter.consume ⟨g, pyRange 0 5 1⟩).1 = [g 0, g 1, g 2, g 3, g 4] := by
  refine ⟨?_, rfl, rfl, rfl⟩
  unfold slice
  rw [if_neg]
  · rfl
  · rintro ⟨h, -⟩
    exact Option.noConfusion h

/-- C6: slicing with `stop` unset and a negative step is treated as
`stop = -1`: the result is the finite map iterator over exactly the indices
`range(start, -1, step)`, and consuming it yields the sequence's values at
those indices, counting down towards index 0 (index 0 itself is reached
exactly when the step divides `start`, e.g. always for `step = -1`, since
the stop `-1` is exclusive). -/
theorem slice_negstep_spec (g : Int → V) (start : Option Int)
    (k : Int) (hk : k < 0) :
    slice g start (some k) none =
      .iter ⟨g, pyRange (effStart start) (-1) k⟩ ∧
    (MapIter.consume ⟨g, pyRange (effStart start) (-1) k⟩).1 =
      (pyRange (effStart start) (-1) k).map g := by
  have hk0 : ¬ (k = 0) := by omega
  have hstep : effStep (some k) = k := if_neg hk0
  refine ⟨?_, rfl⟩
  unfold slice
  rw [if_neg]
  · simp only [hstep]
    rfl
  · rintro ⟨-, h⟩
    rw [hstep] at h
    omega

/-- Witness for C6 at the identity sequence, `start = 5`, `step = -2`:
the produced indices are `[5, 3, 1]`. -/
theorem slice_negstep_spec_witness :
    ((-2 : Int) < 0 ∧
      (slice (fun i : Int => i) (some 5) (some (-2)) none =
        .iter ⟨fun i : Int => i, pyRange (effStart (some 5)) (-1) (-2)⟩ ∧
      (MapIter.consume ⟨fun i : Int => i, pyRange (effStart (some 5)) (-1) (-2)⟩).1 =
        (pyRange (effStart (some 5)) (-1) (-2)).map (fun i : Int => i))) ∧
    pyRange 5 (-1) (-2) = [5, 3, 1] :=
  ⟨⟨by decide, slice_negstep_spec (fun i : Int => i) (some 5) (-2) (by decide)⟩,
   by decide⟩

/-- C7: the Fibonacci sequence has value 0 at index 0 and 1 at index 1, its
value at every index `i ≥ 2` is the sum of its own values at `i - 1` and
`i - 2`, and its values at indices 0..7 are [0, 1, 1, 2, 3, 5, 8, 13];
evaluation terminates at every index because the generator's forcing loop
materializes indices in increasing order, realizing the structural recursion
`fibNat`. -/
theorem fibonacci_spec (i : Int) (hi : 2 ≤ i) :
    fibonacci.generator 0 = 0 ∧
    fibonacci.generator 1 = 1 ∧
    fibonacci.generator i =
      fibonacci.generator (i - 1) + fibonacci.generator (i - 2) ∧
    (List.range 8).map (fun n => fibonacci.generator n) =
      [0, 1, 1, 2, 3, 5, 8, 13] := by
  refine ⟨rfl, rfl, ?_, by decide⟩
  obtain ⟨m, rfl⟩ : ∃ m : Nat, i = (m : Int) + 2 := ⟨(i - 2).toNat, by omega⟩
  have e1 : ((m : Int) + 2) = ((m + 2 : Nat) : Int) := by push_cast; ring
  have e2 : ((m : Int) + 2 - 1) = ((m + 1 : Nat) : Int) := by push_cast; ring
  have e3 : ((m : Int) + 2 - 2) = ((m : Nat) : Int) := by ring
  rw [e2, e3, e1, fib_gen_nat, fib_gen_nat, fib_gen_nat]
  rfl

/-- Witness for C7 at index 5. -/
theorem fibonacci_spec_witness :
    (2 : Int) ≤ 5 ∧
    (fibonacci.generator 0 = 0 ∧
     fibonacci.generator 1 = 1 ∧
     fibonacci.generator 5 =
       fibonacci.generator (5 - 1) + fibonacci.generator (5 - 2) ∧
     (List.range 8).map (fun n => fibonacci.generator n) =
       [0, 1, 1, 2, 3, 5, 8, 13]) :=
  ⟨by decide, fibonacci_spec 5 (by decide)⟩

/-- C9: prepending a finite list of length `L` to a sequence yields the
list's entries at every index below `L` and `self[i - L]` at every index at
or above `L`; prepending `[9, 8]` to `arithmetic_progression(1, 0)` gives 9,
8 and 0 at indices 0, 1 and 2. -/
theorem radd_spec (xs : List Int) (s : InfSequence Int) (i : Int)
    (h0 : 0 ≤ i) :
    (i < (xs.length : Int) → (radd xs s).generator i = xs.getD i.toNat 0) ∧
    ((xs.length : Int) ≤ i →
      (radd xs s).generator i = s.generator (i - xs.length)) ∧
    ((radd [9, 8] (arithmetic_progression 1 0)).generator 0 = 9 ∧
     (radd [9, 8] (arithmetic_progression 1 0)).generator 1 = 8 ∧
     (radd [9, 8] (arithmetic_progression 1 0)).generator 2 = 0) := by
  refine ⟨?_, ?_, by decide⟩
  · intro hlt
    simp only [radd]
    rw [if_pos hlt]
    unfold pyListGet
    rw [if_pos h0]
  · intro hge
    simp only [radd]
    rw [if_neg (by omega)]

/-- Witness for C9 at `[9, 8]`, `arithmetic_progression(1, 0)` and
index 0. -/
theorem radd_spec_witness :
    (0 : Int) ≤ 0 ∧
    (((0 : Int) < (([9, 8] : List Int).length : Int) →
       (radd [9, 8] (arithmetic_progression 1 0)).generator 0 =
         ([9, 8] : List Int).getD (0 : Int).toNat 0) ∧
     ((([9, 8] : List Int).length : Int) ≤ 0 →
       (radd [9, 8] (arithmetic_progression 1 0)).generator 0 =
         (arithmetic_progression 1 0).generator (0 - ([9, 8] : List Int).length)) ∧
     ((radd [9, 8] (arithmetic_progression 1 0)).generator 0 = 9 ∧
      (radd [9, 8] (arithmetic_progression 1 0)).generator 1 = 8 ∧
      (radd [9, 8] (arithmetic_progression 1 0)).generator 2 = 0)) :=
  ⟨by decide, radd_spec [9, 8] (arithmetic_progression 1 0) 0 (by decide)⟩

end Infseq
